import Mathlib

/-!
Verification of the rational-lattice library (src/ratio.rs, src/lattice.rs).

The Rust `i32` values are modeled as unbounded `Int` (no claim under
scrutiny concerns wrap-around); Rust `%` and `/` on integers truncate
toward zero, which is `Int.tmod` / `Int.tdiv`.  The source's `f32`
projection of a ratio is used only in ordering comparisons inside
`normalize`; it is modeled as the exact rational quotient
`Rat.divInt numer denom`.  The two `while`/self-recursions of the source
(`gcd`'s loop and `normalize`) are embedded with an explicit fuel
parameter so that every definition is executable; the fuel supplied is
proved (and in `gcd`'s case chosen) large enough on every input on which
the source loop terminates.
-/

namespace Partch

/-- Struct `Ratio` from src/ratio.rs: a raw numerator/denominator pair of
machine integers, modeled as `Int`. -/
structure Ratio where
  numer : Int
  denom : Int
deriving DecidableEq, Repr

/-- Loop body of `fn gcd` from src/ratio.rs, with fuel: while `a % b > 0`
(truncating `%`), replace `(a, b)` by `(b, a % b)`; return `b`. -/
def gcdGo : Nat → Int → Int → Int
  | 0, _, b => b
  | fuel + 1, a, b => if 0 < a.tmod b then gcdGo fuel b (a.tmod b) else b

/-- Fn `gcd(a, b)` from src/ratio.rs.  The fuel `b.natAbs + 1` dominates the
iteration count of the source loop whenever that loop terminates (each pass
strictly shrinks `|b|`), so this equals the source loop's result there. -/
def gcd (a b : Int) : Int := gcdGo (b.natAbs + 1) a b

/-- Fn `reduce(a, b)` from src/ratio.rs: divide both by `gcd(a, b)` with
truncating division. -/
def reduce (a b : Int) : Int × Int :=
  let g := gcd a b
  (a.tdiv g, b.tdiv g)

/-- `Ratio::new` from src/ratio.rs: reduce, then store. -/
def Ratio.new (numer denom : Int) : Ratio :=
  let p := reduce numer denom
  ⟨p.1, p.2⟩

/-- Impl `From<&Ratio> for f32` from src/ratio.rs: numerator over denominator,
modeled as the exact rational quotient.  The source computes in IEEE-754
binary32; that rounded quotient agrees with the exact one on the magnitudes
reached by the concrete values proved below (all far below 2^24), but can
differ from it at larger magnitudes (binary32 rounds 33554431 to 33554432.0,
making 33554431/16777216 compare as exactly 2), so properties that hinge on
the rounded comparisons at large magnitudes are not settled through this
model. -/
def Ratio.toReal (r : Ratio) : ℚ := Rat.divInt r.numer r.denom

/-- Impl `Mul` for `Ratio` from src/ratio.rs. -/
def Ratio.mul (a b : Ratio) : Ratio := Ratio.new (a.numer * b.numer) (a.denom * b.denom)

/-- Impl `Div` for `Ratio` from src/ratio.rs. -/
def Ratio.div (a b : Ratio) : Ratio := Ratio.new (a.numer * b.denom) (b.numer * a.denom)

instance : Mul Ratio := ⟨Ratio.mul⟩

instance : Div Ratio := ⟨Ratio.div⟩

/-- Recursion of `Ratio::normalize` from src/ratio.rs, with fuel (`none` when
fuel runs out): double the numerator while the value is below 1, double the
denominator while it is at least 2, else return the reduced pair. -/
def normalizeGo : Nat → Ratio → Option Ratio
  | 0, _ => none
  | fuel + 1, r =>
    if r.toReal < 1 then normalizeGo fuel (Ratio.new (r.numer * 2) r.denom)
    else if 2 ≤ r.toReal then normalizeGo fuel (Ratio.new r.numer (r.denom * 2))
    else some (Ratio.new r.numer r.denom)

/-- Fuel supplied to `normalizeGo`; proved sufficient for every ratio with
positive numerator and denominator. -/
def normFuel (r : Ratio) : Nat := r.numer.natAbs + r.denom.natAbs + 1

/-- `Ratio::normalize` from src/ratio.rs (the `getD` fallback is never taken
on ratios with positive numerator and denominator, by `normalizeGo_spec`). -/
def Ratio.normalize (r : Ratio) : Ratio := (normalizeGo (normFuel r) r).getD r

/-- `Ratio::complement` from src/ratio.rs: `(new(2,1) / self).normalize()`. -/
def Ratio.complement (r : Ratio) : Ratio := ((Ratio.new 2 1).div r).normalize

/-- Recursion of `Ratio::pow` from src/ratio.rs, with fuel: zero exponent
gives `new(1,1)`, a negative exponent goes through the complement, a positive
one exponentiates componentwise.  Depth is at most 2, so fuel 2 is exact. -/
def powGo : Nat → Ratio → Int → Ratio
  | 0, _, _ => Ratio.new 1 1
  | fuel + 1, r, exp =>
    if exp = 0 then Ratio.new 1 1
    else if exp < 0 then powGo fuel r.complement (-exp)
    else Ratio.new (r.numer ^ exp.toNat) (r.denom ^ exp.toNat)

/-- `Ratio::pow` from src/ratio.rs. -/
def Ratio.pow (r : Ratio) (exp : Int) : Ratio := powGo 2 r exp

/-- Enum `DimensionBound` from src/lattice.rs. -/
inductive DimensionBound where
  | Infinity : DimensionBound
  | ZeroBounded : Int → DimensionBound
  | RangeBounded : Int → Int → DimensionBound
deriving DecidableEq, Repr

/-- Struct `LatticeDimension` from src/lattice.rs. -/
structure LatticeDimension where
  ratio : Ratio
  bounds : DimensionBound
deriving DecidableEq, Repr

/-- Fn `sign_preserving_mod` from src/lattice.rs, with Rust's truncating `%`. -/
def sign_preserving_mod (a b : Int) : Int := (a.tmod b + b).tmod b

/-- `LatticeDimension::resolve_index` from src/lattice.rs. -/
def LatticeDimension.resolve_index (dim : LatticeDimension) (index : Int) : Int :=
  match dim.bounds with
  | DimensionBound.Infinity => index
  | DimensionBound.ZeroBounded n => sign_preserving_mod index n
  | DimensionBound.RangeBounded a b =>
    let modulo := b - a + 1
    let abs_a := (a.natAbs : Int)
    sign_preserving_mod (index + abs_a) modulo - abs_a

/-- Struct `Lattice` from src/lattice.rs. -/
structure Lattice where
  dimensions : List LatticeDimension
deriving DecidableEq, Repr

/-- `Lattice::new` from src/lattice.rs. -/
def Lattice.new (dimensions : List LatticeDimension) : Lattice := ⟨dimensions⟩

/-- `Lattice::at` from src/lattice.rs (`at` is reserved in Lean, hence `at'`):
zip the axes with the query indices, raise each generator to its resolved
index, and fold with `Ratio` multiplication from `new(1,1)`.  The source
fold's closure is `|e, acc| acc * e` with `e` the accumulator. -/
def Lattice.at' (l : Lattice) (indices : List Int) : Ratio :=
  ((l.dimensions.zip indices).map
      (fun p => p.1.ratio.pow (p.1.resolve_index p.2))).foldl
    (fun e acc => acc * e) (Ratio.new 1 1)

/-! Helper lemmas about truncating remainder and the sign-preserving mod. -/

theorem neg_tmod (a b : Int) : (-a).tmod b = -(a.tmod b) := by
  rw [Int.tmod_def, Int.tmod_def, Int.neg_tdiv]
  ring

theorem tmod_bounds (a : Int) {b : Int} (hb : 0 < b) : -b < a.tmod b ∧ a.tmod b < b := by
  refine ⟨?_, Int.tmod_lt_of_pos a hb⟩
  rcases le_or_lt 0 a with ha | ha
  · have := Int.tmod_nonneg b ha
    omega
  · have h1 : (-a).tmod b < b := Int.tmod_lt_of_pos (-a) hb
    have h2 : a.tmod b = -((-a).tmod b) := by
      rw [neg_tmod, neg_neg]
    omega

theorem sign_preserving_mod_eq_emod (a : Int) {b : Int} (hb : 0 < b) :
    sign_preserving_mod a b = a % b := by
  unfold sign_preserving_mod
  have hbnd := tmod_bounds a hb
  have h0 : 0 ≤ a.tmod b + b := by omega
  rw [Int.tmod_eq_emod h0 hb.le, show a.tmod b + b = a.tmod b + b * 1 by ring,
    Int.add_mul_emod_self_left, Int.tmod_def,
    show a - b * a.tdiv b = a + b * (-a.tdiv b) by ring, Int.add_mul_emod_self_left]

theorem sign_preserving_mod_bounds_pos (a : Int) {b : Int} (hb : 0 < b) :
    0 ≤ sign_preserving_mod a b ∧ sign_preserving_mod a b < b := by
  rw [sign_preserving_mod_eq_emod a hb]
  exact ⟨Int.emod_nonneg a hb.ne', Int.emod_lt_of_pos a hb⟩

theorem sign_preserving_mod_bounds_neg (a : Int) {b : Int} (hb : b < 0) :
    b < sign_preserving_mod a b ∧ sign_preserving_mod a b ≤ 0 := by
  obtain ⟨m, hm, rfl⟩ : ∃ m, 0 < m ∧ b = -m := ⟨-b, by omega, by omega⟩
  unfold sign_preserving_mod
  rw [Int.tmod_neg, Int.tmod_neg]
  have h1 := tmod_bounds a hm
  have key : (a.tmod m + -m).tmod m = -((m - a.tmod m).tmod m) := by
    rw [show a.tmod m + -m = -(m - a.tmod m) by ring, neg_tmod]
  have h2 := tmod_bounds (m - a.tmod m) hm
  have h3 : 0 ≤ m - a.tmod m := by omega
  have h4 := Int.tmod_nonneg m h3
  omega

/-! Claim theorems about index resolution and lattice evaluation. -/

/-- C4: for a `ZeroBounded n` axis with `n ≠ 0`, `resolve_index` returns
`((i mod n) + n) mod n` with truncating remainders, and the result lies in
`[0, n)` when `0 < n` and in `(n, 0]` when `n < 0`. -/
theorem zero_bounded_resolve_spec (rt : Ratio) (n i : Int) (hn : n ≠ 0) :
    (LatticeDimension.mk rt (DimensionBound.ZeroBounded n)).resolve_index i
        = (i.tmod n + n).tmod n
    ∧ (0 < n →
        0 ≤ (LatticeDimension.mk rt (DimensionBound.ZeroBounded n)).resolve_index i
        ∧ (LatticeDimension.mk rt (DimensionBound.ZeroBounded n)).resolve_index i < n)
    ∧ (n < 0 →
        n < (LatticeDimension.mk rt (DimensionBound.ZeroBounded n)).resolve_index i
        ∧ (LatticeDimension.mk rt (DimensionBound.ZeroBounded n)).resolve_index i ≤ 0) := by
  have he : (LatticeDimension.mk rt (DimensionBound.ZeroBounded n)).resolve_index i
      = sign_preserving_mod i n := rfl
  refine ⟨he, fun hpos => ?_, fun hneg => ?_⟩
  · rw [he]
    exact sign_preserving_mod_bounds_pos i hpos
  · rw [he]
    exact sign_preserving_mod_bounds_neg i hneg

/-- Witness for C4 at the concrete axis `ZeroBounded 2` and index `-1`. -/
theorem zero_bounded_resolve_spec_witness :
    (2 : Int) ≠ 0
    ∧ ((LatticeDimension.mk (Ratio.new 3 2) (DimensionBound.ZeroBounded 2)).resolve_index (-1)
          = ((-1 : Int).tmod 2 + 2).tmod 2
      ∧ ((0 : Int) < 2 →
          0 ≤ (LatticeDimension.mk (Ratio.new 3 2)
                (DimensionBound.ZeroBounded 2)).resolve_index (-1)
          ∧ (LatticeDimension.mk (Ratio.new 3 2)
                (DimensionBound.ZeroBounded 2)).resolve_index (-1) < 2)
      ∧ ((2 : Int) < 0 →
          2 < (LatticeDimension.mk (Ratio.new 3 2)
                (DimensionBound.ZeroBounded 2)).resolve_index (-1)
          ∧ (LatticeDimension.mk (Ratio.new 3 2)
                (DimensionBound.ZeroBounded 2)).resolve_index (-1) ≤ 0)) :=
  ⟨by decide, zero_bounded_resolve_spec (Ratio.new 3 2) 2 (-1) (by decide)⟩

/-- C1 counterexample: for the `RangeBounded(2, 3)` axis (a valid `lo ≤ hi`
range) the resolved index of `0` is `-2`, outside `[2, 3]`. -/
theorem range_bounded_resolve_escapes :
    (LatticeDimension.mk (Ratio.new 3 2) (DimensionBound.RangeBounded 2 3)).resolve_index 0 = -2
    ∧ ¬ (2 ≤ (LatticeDimension.mk (Ratio.new 3 2)
            (DimensionBound.RangeBounded 2 3)).resolve_index 0
        ∧ (LatticeDimension.mk (Ratio.new 3 2)
            (DimensionBound.RangeBounded 2 3)).resolve_index 0 ≤ 3) := by
  decide

/-- C1 amended: for a `RangeBounded(lo, hi)` axis with `lo ≤ hi` and
`lo ≤ 0`, every resolved index lies in the inclusive range `[lo, hi]`
(the source offsets by `|lo|`, so a positive `lo` shifts the window
below `lo`, as the counterexample shows). -/
theorem range_bounded_resolve_in_range (rt : Ratio) (a b i : Int)
    (hab : a ≤ b) (ha : a ≤ 0) :
    a ≤ (LatticeDimension.mk rt (DimensionBound.RangeBounded a b)).resolve_index i
    ∧ (LatticeDimension.mk rt (DimensionBound.RangeBounded a b)).resolve_index i ≤ b := by
  have he : (LatticeDimension.mk rt (DimensionBound.RangeBounded a b)).resolve_index i
      = sign_preserving_mod (i + (a.natAbs : Int)) (b - a + 1) - (a.natAbs : Int) := rfl
  have habs : (a.natAbs : Int) = -a := Int.ofNat_natAbs_of_nonpos ha
  have hmod : (0 : Int) < b - a + 1 := by omega
  have hbnd := sign_preserving_mod_bounds_pos (i + (a.natAbs : Int)) hmod
  omega

/-- Witness for the amended C1 at the axis `RangeBounded(-1, 2)` and index `3`. -/
theorem range_bounded_resolve_in_range_witness :
    (-1 : Int) ≤ 2 ∧ (-1 : Int) ≤ 0
    ∧ (-1 ≤ (LatticeDimension.mk (Ratio.new 3 2)
          (DimensionBound.RangeBounded (-1) 2)).resolve_index 3
      ∧ (LatticeDimension.mk (Ratio.new 3 2)
          (DimensionBound.RangeBounded (-1) 2)).resolve_index 3 ≤ 2) :=
  ⟨by decide, by decide,
    range_bounded_resolve_in_range (Ratio.new 3 2) (-1) 2 3 (by decide) (by decide)⟩

/-- C10: a zero numerator with any nonzero denominator reduces to the canonical
zero ratio `(0, 1)`: the gcd loop exits at once returning `d`, and the stored
pair is `(0 / d, d / d) = (0, 1)`. -/
theorem new_zero_numer (d : Int) (hd : d ≠ 0) : Ratio.new 0 d = ⟨0, 1⟩ := by
  unfold Ratio.new reduce gcd
  simp [gcdGo, Int.zero_tmod, Int.zero_tdiv, Int.tdiv_self hd]

/-- Witness for C10 at `d = -5`. -/
theorem new_zero_numer_witness : (-5 : Int) ≠ 0 ∧ Ratio.new 0 (-5) = ⟨0, 1⟩ :=
  ⟨by decide, new_zero_numer (-5) (by decide)⟩

/-- Zipping a list with the other list truncated at the common length is the
plain zip: `zip` already stops at the shorter sequence. -/
theorem zip_take_min {α β : Type} (l1 : List α) (l2 : List β) :
    l1.zip (l2.take (min l1.length l2.length)) = l1.zip l2 := by
  induction l1 generalizing l2 with
  | nil => simp
  | cons x xs ih =>
    cases l2 with
    | nil => simp
    | cons y ys =>
      simp only [List.length_cons, Nat.succ_min_succ, List.take_succ_cons,
        List.zip_cons_cons, ih]

/-- C8: when the coordinate vector's length differs from the number of axes,
`at` pairs positionally and stops at the shorter sequence: evaluating equals
evaluating on the coordinates truncated to the common length. -/
theorem at_truncates (l : Lattice) (coords : List Int)
    (h : coords.length ≠ l.dimensions.length) :
    l.at' coords = l.at' (coords.take (min l.dimensions.length coords.length)) := by
  unfold Lattice.at'
  rw [zip_take_min]

/-- Witness for C8: one axis, two coordinates; the extra coordinate is ignored. -/
theorem at_truncates_witness :
    ([1, 5] : List Int).length
        ≠ (Lattice.new [⟨Ratio.new 3 2, DimensionBound.Infinity⟩]).dimensions.length
    ∧ (Lattice.new [⟨Ratio.new 3 2, DimensionBound.Infinity⟩]).at' [1, 5]
        = (Lattice.new [⟨Ratio.new 3 2, DimensionBound.Infinity⟩]).at'
            (([1, 5] : List Int).take
              (min (Lattice.new
                  [⟨Ratio.new 3 2, DimensionBound.Infinity⟩]).dimensions.length
                ([1, 5] : List Int).length)) :=
  ⟨by decide,
    at_truncates (Lattice.new [⟨Ratio.new 3 2, DimensionBound.Infinity⟩]) [1, 5] (by decide)⟩

/-- C5: lattice evaluation multiplies per-axis generator powers at the resolved
indices starting from `new(1,1)`; the one-axis `(3,2)` lattice and the two-axis
`(3,2), (5,4)` lattice give the documented exact values. -/
theorem lattice_at_examples :
    (Lattice.new [⟨Ratio.new 3 2, DimensionBound.Infinity⟩]).at' [1] = Ratio.new 3 2
    ∧ (Lattice.new [⟨Ratio.new 3 2, DimensionBound.Infinity⟩]).at' [2] = Ratio.new 9 4
    ∧ (Lattice.new [⟨Ratio.new 3 2, DimensionBound.Infinity⟩]).at' [-1] = Ratio.new 4 3
    ∧ (Lattice.new [⟨Ratio.new 3 2, DimensionBound.Infinity⟩]).at' [-2] = Ratio.new 16 9
    ∧ (Lattice.new [⟨Ratio.new 3 2, DimensionBound.Infinity⟩,
        ⟨Ratio.new 5 4, DimensionBound.Infinity⟩]).at' [1, 1] = Ratio.new 15 8 := by
  decide

/-- With a strictly positive exponent both fuel values 1 and 2 take the
componentwise branch of `powGo` immediately. -/
theorem powGo_fuel_pos (r : Ratio) (m : Int) (hm : 0 < m) :
    powGo 1 r m = powGo 2 r m := by
  have h0 : ¬ m = 0 := by omega
  have h1 : ¬ m < 0 := by omega
  simp [powGo, h0, h1]

/-- C3: for a positive ratio and positive `n`, `pow (-n)` goes through the
complement (`pow(-n) = complement().pow(n)`), `pow 0` is `new(1, 1)`, and
concretely `(3,2).pow(-2) = (16,9)`. -/
theorem pow_neg_via_complement (r : Ratio) (n : Int)
    (h1 : 0 < r.numer) (h2 : 0 < r.denom) (hn : 0 < n) :
    r.pow (-n) = r.complement.pow n
    ∧ r.pow 0 = Ratio.new 1 1
    ∧ (Ratio.new 3 2).pow (-2) = Ratio.new 16 9 := by
  refine ⟨?_, by simp [Ratio.pow, powGo], by decide⟩
  show powGo 2 r (-n) = powGo 2 r.complement n
  have hne : ¬ (-n = 0) := by omega
  have hlt : -n < 0 := by omega
  rw [show powGo 2 r (-n) = powGo 1 r.complement (- -n) by simp [powGo, hne, hlt],
    neg_neg, powGo_fuel_pos r.complement n hn]

/-- Witness for C3 at `r = (3,2)`, `n = 2`. -/
theorem pow_neg_via_complement_witness :
    0 < (Ratio.new 3 2).numer ∧ 0 < (Ratio.new 3 2).denom ∧ (0 : Int) < 2
    ∧ ((Ratio.new 3 2).pow (-2) = (Ratio.new 3 2).complement.pow 2
      ∧ (Ratio.new 3 2).pow 0 = Ratio.new 1 1
      ∧ (Ratio.new 3 2).pow (-2) = Ratio.new 16 9) :=
  ⟨by decide, by decide, by decide,
    pow_neg_via_complement (Ratio.new 3 2) 2 (by decide) (by decide) (by decide)⟩

/-! The gcd loop agrees with the mathematical gcd on the inputs the spec
constrains: nonnegative first argument, positive second argument. -/

theorem gcd_emod_rec (a b : Int) : Int.gcd b (a % b) = Int.gcd a b := by
  apply Nat.dvd_antisymm
  · have h1 : (↑(Int.gcd b (a % b)) : ℤ) ∣ a := by
      have hsplit : (↑(Int.gcd b (a % b)) : ℤ) ∣ b * (a / b) + a % b :=
        dvd_add (Int.gcd_dvd_left.mul_right _) Int.gcd_dvd_right
      rwa [Int.ediv_add_emod a b] at hsplit
    exact Int.natCast_dvd_natCast.mp (Int.dvd_gcd h1 Int.gcd_dvd_left)
  · have h2 : (↑(Int.gcd a b) : ℤ) ∣ a % b := by
      rw [Int.emod_def]
      exact dvd_sub Int.gcd_dvd_left (Int.gcd_dvd_right.mul_right _)
    exact Int.natCast_dvd_natCast.mp (Int.dvd_gcd Int.gcd_dvd_right h2)

theorem gcdGo_eq (fuel : Nat) (a b : Int) (ha : 0 ≤ a) (hb : 0 < b)
    (hfuel : b.natAbs < fuel) : gcdGo fuel a b = ↑(Int.gcd a b) := by
  induction fuel generalizing a b with
  | zero => omega
  | succ f ih =>
    have ht : a.tmod b = a % b := Int.tmod_eq_emod ha hb.le
    simp only [gcdGo]
    by_cases h : 0 < a.tmod b
    · rw [if_pos h]
      have hlt : a.tmod b < b := by rw [ht]; exact Int.emod_lt_of_pos a hb
      rw [ih b (a.tmod b) hb.le h (by omega), ht, gcd_emod_rec]
    · rw [if_neg h]
      have hnn : 0 ≤ a % b := Int.emod_nonneg a hb.ne'
      have h0 : a % b = 0 := by omega
      have hdvd : b ∣ a := Int.dvd_of_emod_eq_zero h0
      rw [Int.gcd_eq_right hdvd, Int.natAbs_of_nonneg hb.le]

theorem gcd_eq_intGcd (a b : Int) (ha : 0 ≤ a) (hb : 0 < b) :
    gcd a b = ↑(Int.gcd a b) :=
  gcdGo_eq _ a b ha hb (by omega)

theorem new_eq (a b : Int) (ha : 0 ≤ a) (hb : 0 < b) :
    Ratio.new a b = ⟨a / ↑(Int.gcd a b), b / ↑(Int.gcd a b)⟩ := by
  simp only [Ratio.new, reduce, gcd_eq_intGcd a b ha hb]
  rw [Int.tdiv_eq_ediv_of_dvd Int.gcd_dvd_left, Int.tdiv_eq_ediv_of_dvd Int.gcd_dvd_right]

/-- C2 counterexample: `new(-3, 2)` stores `(-1, 1)`, not the reduced
fraction `(-3, 2)` (the gcd loop exits immediately on the negative
remainder and returns `2`, and `-3 / 2` truncates to `-1`); the stored
value `-1` even differs from `-3/2`. -/
theorem new_negative_numer_wrong :
    Ratio.new (-3) 2 = ⟨-1, 1⟩
    ∧ Ratio.new (-3) 2
        ≠ ⟨(-3 : Int) / ↑(Int.gcd (-3) 2), (2 : Int) / ↑(Int.gcd (-3) 2)⟩
    ∧ (Ratio.new (-3) 2).toReal ≠ Ratio.toReal ⟨-3, 2⟩ := by
  decide

theorem new_reduce_props (n d : Int) (hn : 0 ≤ n) (hd : 0 < d) :
    (Ratio.new n d).numer = n / ↑(Int.gcd n d)
    ∧ (Ratio.new n d).denom = d / ↑(Int.gcd n d)
    ∧ Int.gcd (Ratio.new n d).numer (Ratio.new n d).denom = 1
    ∧ (Ratio.new n d).toReal = Ratio.toReal ⟨n, d⟩ := by
  have hg : 0 < Int.gcd n d := Int.gcd_pos_of_ne_zero_right n hd.ne'
  rw [new_eq n d hn hd]
  refine ⟨rfl, rfl, Int.gcd_div_gcd_div_gcd hg, ?_⟩
  simp only [Ratio.toReal, Rat.divInt_eq_div,
    Int.cast_div_charZero (Int.gcd_dvd_left (a := n) (b := d)),
    Int.cast_div_charZero (Int.gcd_dvd_right (a := n) (b := d))]
  have hgq : ((Int.gcd n d : ℤ) : ℚ) ≠ 0 := by
    simp only [ne_eq, Int.cast_eq_zero]
    exact_mod_cast hg.ne'
  have hdq : ((d : ℤ) : ℚ) ≠ 0 := Int.cast_ne_zero.mpr hd.ne'
  field_simp

/-- C2 amended: for every numerator `n ≥ 0` (negative numerators are
mis-reduced, see the counterexample) and denominator `d > 0`, `new(n, d)`
divides both components by their gcd, leaves them coprime, and preserves
the value `n/d`. -/
theorem new_reduces (n d : Int) (hn : 0 ≤ n) (hd : 0 < d) :
    (Ratio.new n d).numer = n / ↑(Int.gcd n d)
    ∧ (Ratio.new n d).denom = d / ↑(Int.gcd n d)
    ∧ Int.gcd (Ratio.new n d).numer (Ratio.new n d).denom = 1
    ∧ (Ratio.new n d).toReal = Ratio.toReal ⟨n, d⟩ :=
  new_reduce_props n d hn hd

/-- Witness for the amended C2 at `n = 6`, `d = 4`. -/
theorem new_reduces_witness :
    (0 : Int) ≤ 6 ∧ (0 : Int) < 4
    ∧ ((Ratio.new 6 4).numer = 6 / ↑(Int.gcd 6 4)
      ∧ (Ratio.new 6 4).denom = 4 / ↑(Int.gcd 6 4)
      ∧ Int.gcd (Ratio.new 6 4).numer (Ratio.new 6 4).denom = 1
      ∧ (Ratio.new 6 4).toReal = Ratio.toReal ⟨6, 4⟩) :=
  ⟨by decide, by decide, new_reduces 6 4 (by decide) (by decide)⟩

/-! Comparison lemmas relating the rational projection to integer
inequalities, and arithmetic helpers for the normalize termination measure. -/

theorem toReal_lt_one {r : Ratio} (hd : 0 < r.denom) : r.toReal < 1 ↔ r.numer < r.denom := by
  rw [Ratio.toReal, Rat.divInt_eq_div, div_lt_one (by exact_mod_cast hd)]
  exact Int.cast_lt

theorem two_le_toReal {r : Ratio} (hd : 0 < r.denom) :
    2 ≤ r.toReal ↔ 2 * r.denom ≤ r.numer := by
  rw [Ratio.toReal, Rat.divInt_eq_div,
    le_div_iff (show (0:ℚ) < (r.denom : ℚ) by exact_mod_cast hd),
    show (2:ℚ) * (r.denom : ℚ) = ((2 * r.denom : Int) : ℚ) by push_cast; ring]
  exact Int.cast_le

theorem toReal_double_numer (n d : Int) : Ratio.toReal ⟨n * 2, d⟩ = 2 * Ratio.toReal ⟨n, d⟩ := by
  simp only [Ratio.toReal, Rat.divInt_eq_div]
  push_cast
  ring

theorem toReal_double_denom (n d : Int) : Ratio.toReal ⟨n, d * 2⟩ = Ratio.toReal ⟨n, d⟩ / 2 := by
  simp only [Ratio.toReal, Rat.divInt_eq_div]
  push_cast
  ring

theorem new_pos_props (a b : Int) (ha : 0 < a) (hb : 0 < b) :
    0 < (Ratio.new a b).numer ∧ 0 < (Ratio.new a b).denom
    ∧ Int.gcd (Ratio.new a b).numer (Ratio.new a b).denom = 1
    ∧ (Ratio.new a b).toReal = Ratio.toReal ⟨a, b⟩ := by
  obtain ⟨h1, h2, h3, h4⟩ := new_reduce_props a b ha.le hb
  refine ⟨?_, ?_, h3, h4⟩
  · rw [h1]
    exact Int.ediv_pos_of_pos_of_dvd ha (Int.natCast_nonneg _) Int.gcd_dvd_left
  · rw [h2]
    exact Int.ediv_pos_of_pos_of_dvd hb (Int.natCast_nonneg _) Int.gcd_dvd_right

theorem halfdiv_lt (x y : Int) (hy : 0 < y) (hyx : y ≤ x) : x / (y * 2) < x / y := by
  have hq0 : 0 ≤ x / (y * 2) := Int.ediv_nonneg (by omega) (by omega)
  have hq : x / (y * 2) * (y * 2) ≤ x := Int.ediv_mul_le x (by omega)
  have hgoal : (x / (y * 2) + 1) * y ≤ x := by
    rcases (by omega : x / (y * 2) = 0 ∨ 1 ≤ x / (y * 2)) with h0 | h1
    · rw [h0]
      omega
    · nlinarith [mul_nonneg (by omega : (0:Int) ≤ x / (y * 2) - 1) hy.le]
  have hfin := (Int.le_ediv_iff_mul_le hy).mpr hgoal
  omega

theorem ediv_ediv_of_dvd (x y g : Int) (hg : 0 < g) (hx : g ∣ x) (hy : g ∣ y) :
    (x / g) / (y / g) = x / y := by
  obtain ⟨x', rfl⟩ := hx
  obtain ⟨y', rfl⟩ := hy
  rw [Int.mul_ediv_cancel_left x' hg.ne', Int.mul_ediv_cancel_left y' hg.ne']
  exact (Int.mul_ediv_mul_of_pos x' y' hg).symm

/-- Once the value is in the window `[1, 2)` the very next unfolding of
`normalizeGo` returns `new(numer, denom)`. -/
theorem normalizeGo_base (r : Ratio) (hge : ¬ r.toReal < 1) (hlt2 : r.toReal < 2)
    (f : Nat) (hf : 0 < f) :
    normalizeGo f r = some (Ratio.new r.numer r.denom) := by
  obtain ⟨f', rfl⟩ : ∃ f', f = f' + 1 := ⟨f - 1, by omega⟩
  simp only [normalizeGo, if_neg hge, if_neg (not_le.mpr hlt2)]

/-- Sufficient fuel makes `normalizeGo` return a reduced positive ratio whose
value lies in `[1, 2)`; the measure `(d/n).toNat + (n/d).toNat` bounds the
number of doubling steps and strictly decreases along the recursion. -/
theorem normalizeGo_spec (k : Nat) :
    ∀ (r : Ratio), 0 < r.numer → 0 < r.denom →
      (r.denom / r.numer).toNat + (r.numer / r.denom).toNat ≤ k →
      ∀ fuel : Nat, k < fuel →
      ∃ out : Ratio, normalizeGo fuel r = some out
        ∧ 0 < out.numer ∧ 0 < out.denom
        ∧ Int.gcd out.numer out.denom = 1
        ∧ 1 ≤ out.toReal ∧ out.toReal < 2 := by
  induction k using Nat.strong_induction_on with
  | _ k IH =>
    intro r h1 h2 hk fuel hf
    obtain ⟨f, rfl⟩ : ∃ f, fuel = f + 1 := ⟨fuel - 1, by omega⟩
    by_cases hlt : r.toReal < 1
    · -- value below 1: the source doubles the numerator
      have hnd : r.numer < r.denom := (toReal_lt_one h2).mp hlt
      have hpos2 : (0:Int) < r.numer * 2 := by omega
      obtain ⟨p1, p2, p3, p4⟩ := new_pos_props (r.numer * 2) r.denom hpos2 h2
      have hval : (Ratio.new (r.numer * 2) r.denom).toReal = 2 * r.toReal := by
        rw [p4, toReal_double_numer]
      have hcomp := new_eq (r.numer * 2) r.denom hpos2.le h2
      have hdn1 : 1 ≤ r.denom / r.numer := (Int.le_ediv_iff_mul_le h1).mpr (by omega)
      have hk1 : 1 ≤ k := by omega
      simp only [normalizeGo, if_pos hlt]
      by_cases hlt' : (Ratio.new (r.numer * 2) r.denom).toReal < 1
      · -- still below 1: recurse, measure strictly smaller
        refine IH (k - 1) (by omega) _ p1 p2 ?_ f (by omega)
        have hnd' : (Ratio.new (r.numer * 2) r.denom).numer
            < (Ratio.new (r.numer * 2) r.denom).denom := (toReal_lt_one p2).mp hlt'
        have hz : (Ratio.new (r.numer * 2) r.denom).numer
            / (Ratio.new (r.numer * 2) r.denom).denom = 0 :=
          Int.ediv_eq_zero_of_lt p1.le hnd'
        have hgpos : (0:Int) < ↑(Int.gcd (r.numer * 2) r.denom) := by
          exact_mod_cast Int.gcd_pos_of_ne_zero_right (r.numer * 2) h2.ne'
        have hfrac : (Ratio.new (r.numer * 2) r.denom).denom
            / (Ratio.new (r.numer * 2) r.denom).numer = r.denom / (r.numer * 2) := by
          rw [hcomp]
          exact ediv_ediv_of_dvd r.denom (r.numer * 2) _ hgpos Int.gcd_dvd_right Int.gcd_dvd_left
        have hdec : r.denom / (r.numer * 2) < r.denom / r.numer :=
          halfdiv_lt r.denom r.numer h1 (by omega)
        rw [hfrac, hz]
        omega
      · -- doubling landed in the window [1, 2)
        have hlt2 : (Ratio.new (r.numer * 2) r.denom).toReal < 2 := by
          rw [hval]
          linarith
        rw [normalizeGo_base _ hlt' hlt2 f (by omega)]
        obtain ⟨q1, q2, q3, q4⟩ := new_pos_props _ _ p1 p2
        refine ⟨_, rfl, q1, q2, q3, ?_, ?_⟩
        · rw [q4]
          exact not_lt.mp hlt'
        · rw [q4]
          exact hlt2
    · by_cases hge : 2 ≤ r.toReal
      · -- value at least 2: the source doubles the denominator
        have hnd : 2 * r.denom ≤ r.numer := (two_le_toReal h2).mp hge
        have hpos2 : (0:Int) < r.denom * 2 := by omega
        obtain ⟨p1, p2, p3, p4⟩ := new_pos_props r.numer (r.denom * 2) h1 hpos2
        have hval : (Ratio.new r.numer (r.denom * 2)).toReal = r.toReal / 2 := by
          rw [p4, toReal_double_denom]
        have hcomp := new_eq r.numer (r.denom * 2) h1.le hpos2
        have hdn1 : 1 ≤ r.numer / r.denom := (Int.le_ediv_iff_mul_le h2).mpr (by omega)
        have hz0 : r.denom / r.numer = 0 := Int.ediv_eq_zero_of_lt h2.le (by omega)
        have hk1 : 1 ≤ k := by omega
        simp only [normalizeGo, if_neg hlt, if_pos hge]
        by_cases hge' : 2 ≤ (Ratio.new r.numer (r.denom * 2)).toReal
        · refine IH (k - 1) (by omega) _ p1 p2 ?_ f (by omega)
          have hnd' : 2 * (Ratio.new r.numer (r.denom * 2)).denom
              ≤ (Ratio.new r.numer (r.denom * 2)).numer := (two_le_toReal p2).mp hge'
          have hz : (Ratio.new r.numer (r.denom * 2)).denom
              / (Ratio.new r.numer (r.denom * 2)).numer = 0 :=
            Int.ediv_eq_zero_of_lt p2.le (by omega)
          have hgpos : (0:Int) < ↑(Int.gcd r.numer (r.denom * 2)) := by
            exact_mod_cast Int.gcd_pos_of_ne_zero_right r.numer
              (show r.denom * 2 ≠ 0 by omega)
          have hfrac : (Ratio.new r.numer (r.denom * 2)).numer
              / (Ratio.new r.numer (r.denom * 2)).denom = r.numer / (r.denom * 2) := by
            rw [hcomp]
            exact ediv_ediv_of_dvd r.numer (r.denom * 2) _ hgpos Int.gcd_dvd_left
              Int.gcd_dvd_right
          have hdec : r.numer / (r.denom * 2) < r.numer / r.denom :=
            halfdiv_lt r.numer r.denom h2 (by omega)
          rw [hfrac, hz]
          omega
        · -- halving landed in the window [1, 2)
          have hge1 : 1 ≤ (Ratio.new r.numer (r.denom * 2)).toReal := by
            rw [hval]
            linarith
          rw [normalizeGo_base _ (not_lt.mpr hge1) (not_le.mp hge') f (by omega)]
          obtain ⟨q1, q2, q3, q4⟩ := new_pos_props _ _ p1 p2
          refine ⟨_, rfl, q1, q2, q3, ?_, ?_⟩
          · rw [q4]
            exact hge1
          · rw [q4]
            exact not_le.mp hge'
      · -- already in the window [1, 2): return the reduced pair
        rw [normalizeGo_base r hlt (not_le.mp hge) (f + 1) (by omega)]
        obtain ⟨q1, q2, q3, q4⟩ := new_pos_props r.numer r.denom h1 h2
        refine ⟨_, rfl, q1, q2, q3, ?_, ?_⟩
        · rw [q4]
          exact not_lt.mp hlt
        · rw [q4]
          exact not_le.mp hge

theorem measure_lt_normFuel (r : Ratio) (h1 : 0 < r.numer) (h2 : 0 < r.denom) :
    (r.denom / r.numer).toNat + (r.numer / r.denom).toNat < normFuel r := by
  have e1 : r.denom / r.numer ≤ r.denom := Int.ediv_le_self _ h2.le
  have e2 : r.numer / r.denom ≤ r.numer := Int.ediv_le_self _ h1.le
  unfold normFuel
  omega

/-- Sanity of the embedded `normalize` on positive inputs: the fuel suffices
(the fallback branch of `Ratio.normalize` is never taken), and the
exact-rational recursion lands on a reduced positive pair in `[1, 2)`.
This underwrites the uses of `normalize` inside `complement` and `pow`. -/
theorem normalize_spec (r : Ratio) (h1 : 0 < r.numer) (h2 : 0 < r.denom) :
    (normalizeGo (normFuel r) r).isSome = true
    ∧ 0 < r.normalize.numer ∧ 0 < r.normalize.denom
    ∧ Int.gcd r.normalize.numer r.normalize.denom = 1
    ∧ 1 ≤ r.normalize.toReal ∧ r.normalize.toReal < 2 := by
  obtain ⟨out, hout, q1, q2, q3, q4, q5⟩ :=
    normalizeGo_spec _ r h1 h2 le_rfl (normFuel r) (measure_lt_normFuel r h1 h2)
  unfold Ratio.normalize
  rw [hout]
  exact ⟨rfl, q1, q2, q3, q4, q5⟩

example : Ratio.new 3 6 = ⟨1, 2⟩ := by decide
example : Ratio.new 3 2 = ⟨3, 2⟩ := by decide
example : (Ratio.new 1 2).normalize = Ratio.new 1 1 := by decide
example : (Ratio.new 3 2).complement = Ratio.new 4 3 := by decide
example : (Ratio.new 3 2).pow (-2) = Ratio.new 16 9 := by decide
example : (Lattice.new [⟨Ratio.new 3 2, DimensionBound.Infinity⟩]).at' [-2] = Ratio.new 16 9 := by
  decide

end Partch
